import Mathlib

/-!
Shallow embedding of the `ts-module-alias` engine (`src/index.ts`).

Strings are modelled as Lean `String`s; the character-level work (Node's
posix `path.normalize` / `path.join`, splitting on `/`) is done on
`List Char` via `String.data`.  JavaScript objects used as dictionaries
are modelled as association lists with in-place update (`dictSet`), which
matches the insertion-order key semantics of JS objects for the
non-numeric keys (alias names, directory paths) this program stores.
Mutable class state is threaded explicitly: each method of the
`ModuleAlias` class becomes a function taking and returning the state it
may mutate.  The captured runtime hooks (`Module._nodeModulePaths`,
`Module._resolveFilename`) are represented both abstractly, as `HookFn`
wrap-chains recording capture/re-wrap events, and behaviourally, as
function parameters supplying the delegate's answer.
-/

namespace TsModuleAlias

/-! ### Node posix path model -/

/-- Splitting a character list on `'/'`, as JS `str.split('/')`:
the result is never empty, and empty segments are kept. -/
def splitSlash : List Char → List (List Char)
  | [] => [[]]
  | c :: rest =>
    if c = '/' then [] :: splitSlash rest
    else
      match splitSlash rest with
      | g :: gs => (c :: g) :: gs
      | [] => [[c]]

/-- Joining segments with `'/'` between them (inverse of `splitSlash`). -/
def joinSegs : List (List Char) → List Char
  | [] => []
  | [s] => s
  | s :: rest => s ++ '/' :: joinSegs rest

/-- Node's `normalizeString`: drops empty and `.` segments and resolves
`..` against the accumulated stack; `allowAbove` keeps leading `..`
segments (relative paths) instead of dropping them (absolute paths). -/
def normSegs (allowAbove : Bool) : List (List Char) → List (List Char) → List (List Char)
  | acc, [] => acc.reverse
  | acc, seg :: rest =>
    if seg = [] ∨ seg = ['.'] then normSegs allowAbove acc rest
    else if seg = ['.', '.'] then
      match acc with
      | [] => normSegs allowAbove (if allowAbove then [['.', '.']] else []) rest
      | prev :: accRest =>
        if prev = ['.', '.'] then normSegs allowAbove (seg :: acc) rest
        else normSegs allowAbove accRest rest
    else normSegs allowAbove (seg :: acc) rest

/-- Node's `path.posix.normalize` on character lists. -/
def normalizeL (p : List Char) : List Char :=
  if p = [] then ['.']
  else
    let segs := normSegs (if p.head? = some '/' then false else true) [] (splitSlash p)
    let body := joinSegs segs
    if body = [] then
      if p.head? = some '/' then ['/']
      else if p.getLast? = some '/' then ['.', '/'] else ['.']
    else
      let body2 := if p.getLast? = some '/' then body ++ ['/'] else body
      if p.head? = some '/' then '/' :: body2 else body2

/-- Node's `path.posix.join` restricted to two arguments, on character
lists: empty arguments are dropped, the rest are joined with `'/'` and
the result normalized; joining nothing yields `"."`. -/
def joinL (a b : List Char) : List Char :=
  let parts := [a, b].filter (fun s => decide (s ≠ []))
  if parts = [] then ['.'] else normalizeL (joinSegs parts)

/-- `path.normalize` on strings. -/
def normalize (p : String) : String := ⟨normalizeL p.data⟩

/-- `path.join(a, b)` on strings. -/
def join2 (a b : String) : String := ⟨joinL a.data b.data⟩

/-- `path.posix.isAbsolute`. -/
def isAbsolute (p : String) : Bool := decide (p.data.head? = some '/')

/-- JS `str.substr(n)`: drop the first `n` characters. -/
def substrFrom (s : String) (n : Nat) : String := ⟨s.data.drop n⟩

/-! ### JavaScript value / dictionary model -/

/-- The value returned by a custom handler function: either a string or
any non-string value.  All non-string values, and the empty (falsy)
string, fail the `!aliasTarget || typeof aliasTarget !== 'string'`
check in `resolveFilename`. -/
inductive JsVal where
  | vstr (s : String)
  | vother
deriving DecidableEq

/-- A value of the `moduleAliases` dictionary (`ModuleAliasDict`): a
static target path or a custom handler function. -/
inductive AliasTarget where
  | static (path : String)
  | handler (fn : String → String → String → JsVal)

/-- Dictionary lookup (`dict[key]`, `undefined` as `none`). -/
def dictGet : List (String × AliasTarget) → String → Option AliasTarget
  | [], _ => none
  | (k, v) :: rest, a => if k = a then some v else dictGet rest a

/-- Dictionary assignment `dict[key] = value`: an existing key keeps its
position (JS object key order), a new key is appended. -/
def dictSet : List (String × AliasTarget) → String → AliasTarget → List (String × AliasTarget)
  | [], a, t => [(a, t)]
  | (k, v) :: rest, a, t => if k = a then (k, t) :: rest else (k, v) :: dictSet rest a t

/-- `Object.keys` of a dictionary. -/
def dictKeys (d : List (String × AliasTarget)) : List String := d.map Prod.fst

/-- `Object.keys` of a JS object built by inserting the listed keys in
order with value `true` (the `paths` accumulator in `resolveFilename`):
first occurrence wins, later duplicates are dropped. -/
def objKeys : List String → List String
  | [] => []
  | x :: xs => x :: objKeys (xs.filter (fun y => decide (y ≠ x)))
termination_by l => l.length
decreasing_by
  simp only [List.length_cons]
  exact Nat.lt_succ_of_le (List.length_filter_le _ _)

/-! ### Engine state -/

/-- Abstract token for a runtime resolution hook: the pristine runtime
function, or a wrapper installed by the constructor around a captured
inner hook. -/
inductive HookFn where
  | base
  | wrapped (inner : HookFn)
deriving DecidableEq

/-- The observable part of a `NodeModule` used by this program: its
`filename` and its `paths` array (possibly absent at runtime). -/
structure NodeModuleRec where
  filename : String
  paths : Option (List String)

/-- The mutable fields of a `ModuleAlias` instance, plus the `paths`
array of the owning module (`this.module.paths`), which `addPath`
mutates through `addPathHelper`. -/
structure ModuleAliasState where
  oldNodeModulePaths : HookFn
  oldResolveFilename : HookFn
  modulePaths : List String
  moduleAliases : List (String × AliasTarget)
  moduleAliasNames : List String
  ownerPaths : Option (List String)

/-- Lexicographic code-unit comparison of character lists: the string
order used by JS `Array.prototype.sort()` without a comparator. -/
def charListLe : List Char → List Char → Bool
  | [], _ => true
  | _ :: _, [] => false
  | a :: as, b :: bs =>
    if a.toNat < b.toNat then true
    else if b.toNat < a.toNat then false
    else charListLe as bs

/-- The sort order on alias names, as a proposition. -/
def strLeP (a b : String) : Prop := charListLe a.data b.data = true

instance (a b : String) : Decidable (strLeP a b) :=
  inferInstanceAs (Decidable (charListLe a.data b.data = true))

/-- JS `Array.prototype.sort()` on alias names: ascending lexicographic
string order. -/
def sortNames (l : List String) : List String := l.insertionSort strLeP

/-- `addAlias`: overwrite-or-insert the rule, then recompute the sorted
name index from the dictionary's keys. -/
def addAlias (self : ModuleAliasState) (aliasName : String) (target : AliasTarget) :
    ModuleAliasState :=
  let d := dictSet self.moduleAliases aliasName target
  { self with moduleAliases := d, moduleAliasNames := sortNames (dictKeys d) }

/-- `addAliases`: apply `addAlias` to every entry in order. -/
def addAliases (self : ModuleAliasState) (entries : List (String × AliasTarget)) :
    ModuleAliasState :=
  entries.foldl (fun s e => addAlias s e.1 e.2) self

/-- `addPathHelper`: normalize and front-insert into the target array if
not already present (no-op when the array is absent). -/
def addPathHelper (path : String) (targetArray : Option (List String)) :
    Option (List String) :=
  let p := normalize path
  match targetArray with
  | none => none
  | some arr => some (if p ∈ arr then arr else p :: arr)

/-- `addPath`: normalize, and if the normalized path is new, front-insert
it into `modulePaths` and (via `addPathHelper`) into the owning module's
`paths`. -/
def addPath (self : ModuleAliasState) (path : String) : ModuleAliasState :=
  let p := normalize path
  if p ∈ self.modulePaths then self
  else
    { self with
        modulePaths := p :: self.modulePaths
        ownerPaths := addPathHelper p self.ownerPaths }

/-- `isPathMatchesAlias`: `path.indexOf(alias) === 0 &&
(path.length === alias.length || path[alias.length] === '/')`. -/
def isPathMatchesAlias (path aliasName : String) : Bool :=
  decide (path.data.take aliasName.data.length = aliasName.data) &&
    (decide (path.length = aliasName.length) ||
      decide (path.data[aliasName.length]? = some '/'))

/-- The alias-matching loop of `resolveFilename`:
`for (let i = names.length; i-- > 0;) { if (match) { ...; break } }`
walks the ascending-sorted name index from the end, i.e. returns the
last (lexicographically greatest) matching name. -/
def findMatchingAlias : List String → String → Option String
  | [], _ => none
  | a :: rest, req =>
    match findMatchingAlias rest req with
    | some b => some b
    | none => if isPathMatchesAlias req a then some a else none

/-- Errors a call to the wrapped `_resolveFilename` can raise before
delegating: the library's own `Error` (bad handler return), or a
`TypeError` from the JS runtime (property access on `null`/`undefined`,
`Path.join` on a non-string). -/
inductive ResolveErr where
  | aliasError (msg : String)
  | jsTypeError
deriving DecidableEq

/-- The alias-rewriting phase of `resolveFilename` (the `for` loop): find
the first matching alias walking the sorted index downwards, resolve its
target (calling the handler with `(parent.filename, request, alias)` if
it is a function), and join the target with the request's remainder.
At most one alias is ever applied (`break` after the first match). -/
def rewriteRequest (self : ModuleAliasState) (request : String)
    (parent : Option NodeModuleRec) : Except ResolveErr String :=
  match findMatchingAlias self.moduleAliasNames request with
  | none => .ok request
  | some aliasName =>
    match dictGet self.moduleAliases aliasName with
    | none => .error .jsTypeError
    | some (.static t) => .ok (join2 t (substrFrom request aliasName.length))
    | some (.handler f) =>
      match parent with
      | none => .error .jsTypeError
      | some m =>
        match f m.filename request aliasName with
        | .vstr s =>
          if s = "" then
            .error (.aliasError "[module-alias] Expecting custom handler function to return path.")
          else .ok (join2 s (substrFrom request aliasName.length))
        | .vother =>
          .error (.aliasError "[module-alias] Expecting custom handler function to return path.")

/-- The unconditional `parent.paths` repair in `resolveFilename`: build a
JS object keyed by `[...self.modulePaths, ...parent.paths]` (just
`self.modulePaths` when `parent?.paths` is falsy) and assign its key
list back to `parent.paths` — skipped entirely when `parent` is falsy. -/
def repairParentPaths (self : ModuleAliasState) (parent : Option NodeModuleRec) :
    Option NodeModuleRec :=
  match parent with
  | none => none
  | some m =>
    let combined :=
      match m.paths with
      | some ps => self.modulePaths ++ ps
      | none => self.modulePaths
    some { m with paths := some (objKeys combined) }

/-- The wrapped `_resolveFilename`: rewrite the request through the alias
table (possibly throwing), repair `parent.paths`, then delegate to the
captured original with the rewritten request, the repaired parent and
the forwarded extra arguments.  The returned triple is the instance
state after the call, the parent after the call, and the outcome. -/
def resolveFilename {α β : Type} (oldResolve : String → Option NodeModuleRec → α → β)
    (self : ModuleAliasState) (request : String) (parent : Option NodeModuleRec)
    (args : α) : ModuleAliasState × Option NodeModuleRec × Except ResolveErr β :=
  match rewriteRequest self request parent with
  | .error e => (self, parent, .error e)
  | .ok req =>
    let parent2 := repairParentPaths self parent
    (self, parent2, .ok (oldResolve req parent2 args))

/-- The wrapped `_nodeModulePaths`: delegate for the baseline list, then
prepend `modulePaths` unless `from.indexOf('node_modules') !== -1`.
The pair returned is the (untouched) instance state and the list. -/
def nodeModulePaths (self : ModuleAliasState) (old : String → List String)
    (fromDir : String) : ModuleAliasState × List String :=
  let paths := old fromDir
  let paths :=
    if ("node_modules".data <:+: fromDir.data) then paths
    else self.modulePaths ++ paths
  (self, paths)

/-! ### Constructor model -/

/-- The fields of `package.json` this program reads: the `_moduleAliases`
mapping (entries in key order) and the `_moduleDirectories` array when
present (`instanceof Array`). -/
structure NpmPackage where
  moduleAliases : List (String × String)
  moduleDirectories : Option (List String)

/-- The module-constructor object's state: its two resolution hook slots
and the `_moduleAlias` singleton slot. -/
structure ModuleCtorState where
  nodeModulePathsSlot : HookFn
  resolveFilenameSlot : HookFn
  moduleAliasSlot : Option ModuleAliasState

/-- The alias-import loop of the constructor: absolute targets are
rebased onto the manifest's base directory with `Path.join`, all others
kept verbatim. -/
def importAliases (base : String) (entries : List (String × String)) :
    List (String × AliasTarget) :=
  entries.map (fun e =>
    (e.1, AliasTarget.static (if isAbsolute e.2 then join2 base e.2 else e.2)))

/-- The `ModuleAlias` constructor after a successful manifest read: if
`_moduleAlias` is already set, return that instance untouched; otherwise
capture the current hooks, install wrappers, import the manifest's
aliases, register its extra directories (skipping `node_modules`,
joining each onto the base), and publish the instance. -/
def construct (ctx : ModuleCtorState) (parentPaths : Option (List String))
    (pkg : NpmPackage) (base : String) : ModuleCtorState × ModuleAliasState :=
  match ctx.moduleAliasSlot with
  | some inst => (ctx, inst)
  | none =>
    let inst0 : ModuleAliasState :=
      { oldNodeModulePaths := ctx.nodeModulePathsSlot
        oldResolveFilename := ctx.resolveFilenameSlot
        modulePaths := []
        moduleAliases := []
        moduleAliasNames := []
        ownerPaths := parentPaths }
    let inst1 := addAliases inst0 (importAliases base pkg.moduleAliases)
    let inst2 :=
      match pkg.moduleDirectories with
      | some dirs =>
        dirs.foldl (fun s d => if d = "node_modules" then s else addPath s (join2 base d)) inst1
      | none => inst1
    ({ nodeModulePathsSlot := .wrapped ctx.nodeModulePathsSlot
       resolveFilenameSlot := .wrapped ctx.resolveFilenameSlot
       moduleAliasSlot := some inst2 }, inst2)

/-- Calling `addAlias` through any handle of the published singleton:
all handles are the same object, so the call updates the single
published instance. -/
def ctxAddAlias (ctx : ModuleCtorState) (aliasName : String) (target : AliasTarget) :
    ModuleCtorState :=
  { ctx with moduleAliasSlot := ctx.moduleAliasSlot.map (fun s => addAlias s aliasName target) }

/-! ### Spec-side definitions for comparison -/

/-- Modelled from the spec: a directory "lies inside a directory that is
itself a standard dependency directory" iff one of its path segments is
exactly `node_modules` (the `node_modules` subtree reading of §4.2). -/
def specInsideDependencyDir (p : String) : Bool :=
  decide ("node_modules".data ∈ splitSlash p.data)

/-- The invariant of the alias table (spec §3): the sorted name index is
exactly the ascending-sorted key set of the rule dictionary, and keys
are unique. -/
def tableInv (s : ModuleAliasState) : Prop :=
  s.moduleAliasNames = sortNames (dictKeys s.moduleAliases) ∧ (dictKeys s.moduleAliases).Nodup

/-- A registration burst: a sequence of `addAlias` calls (an
`addAliases` call is exactly such a sequence over its entries). -/
def applyRegistrations (s : ModuleAliasState) (ops : List (String × AliasTarget)) :
    ModuleAliasState :=
  ops.foldl (fun s e => addAlias s e.1 e.2) s

/-- A character-list segment is clean when it is a real path component:
nonempty, not `.`, not `..`, and free of separators. -/
def cleanSeg (s : List Char) : Bool :=
  decide (s ≠ []) && decide (s ≠ ['.']) && decide (s ≠ ['.', '.']) && decide ('/' ∉ s)

/-- A clean relative path: all its `/`-separated segments are clean. -/
def cleanRelL (l : List Char) : Bool := (splitSlash l).all cleanSeg

/-- A clean path: a clean relative path, optionally with one leading
separator (absolute). -/
def cleanPathL (l : List Char) : Bool :=
  if l.head? = some '/' then cleanRelL l.tail else cleanRelL l

/-- Clean relative path, on strings. -/
def CleanRel (s : String) : Prop := cleanRelL s.data = true

/-- Clean path, on strings. -/
def CleanPath (s : String) : Prop := cleanPathL s.data = true

instance (s : String) : Decidable (CleanRel s) :=
  inferInstanceAs (Decidable (cleanRelL s.data = true))

instance (s : String) : Decidable (CleanPath s) :=
  inferInstanceAs (Decidable (cleanPathL s.data = true))

/-! ### Sample states for concrete evaluation -/

/-- A fresh, empty instance state (as produced by a constructor run with
an empty manifest and a parent without a `paths` array). -/
def emptyState : ModuleAliasState :=
  { oldNodeModulePaths := .base
    oldResolveFilename := .base
    modulePaths := []
    moduleAliases := []
    moduleAliasNames := []
    ownerPaths := none }

/-- An instance state with the two overlapping static aliases of the
spec's example, `"@a"` and `"@a/sub"`. -/
def overlapState : ModuleAliasState :=
  { emptyState with
      moduleAliases := [("@a", .static "/A"), ("@a/sub", .static "/S")]
      moduleAliasNames := ["@a", "@a/sub"] }

/-- An instance state whose table holds the single alias `a -> t` with a
static target. -/
def singleAliasState (a t : String) : ModuleAliasState :=
  { emptyState with moduleAliases := [(a, .static t)], moduleAliasNames := [a] }

/-- An instance state with one extra module directory registered. -/
def pathState : ModuleAliasState := { emptyState with modulePaths := ["/p"] }

/-- A handler that returns a non-string value. -/
def handlerBad : String → String → String → JsVal := fun _ _ _ => .vother

/-- An instance state with one handler-style alias. -/
def handlerState : ModuleAliasState :=
  { emptyState with
      moduleAliases := [("@h", .handler handlerBad)]
      moduleAliasNames := ["@h"] }

/-! ### Lemmas about the sort relation -/

theorem charListLe_total (l1 l2 : List Char) :
    charListLe l1 l2 = true ∨ charListLe l2 l1 = true := by
  induction l1 generalizing l2 with
  | nil => left; cases l2 <;> rfl
  | cons a as ih =>
    cases l2 with
    | nil => right; rfl
    | cons b bs =>
      simp only [charListLe]
      rcases Nat.lt_trichotomy a.toNat b.toNat with h | h | h
      · left; simp [h]
      · have h2 : ¬ a.toNat < b.toNat := by omega
        have h3 : ¬ b.toNat < a.toNat := by omega
        simpa [h2, h3] using ih bs
      · right; simp [h]

theorem charListLe_trans : ∀ {l1 l2 l3 : List Char},
    charListLe l1 l2 = true → charListLe l2 l3 = true → charListLe l1 l3 = true
  | [], l2, l3, _, _ => by cases l3 <;> simp [charListLe]
  | a :: as, [], _, h12, _ => by simp [charListLe] at h12
  | _ :: _, _ :: _, [], _, h23 => by simp [charListLe] at h23
  | a :: as, b :: bs, c :: cs, h12, h23 => by
    simp only [charListLe] at h12 h23 ⊢
    rcases Nat.lt_trichotomy a.toNat b.toNat with h1 | h1 | h1
    · rcases Nat.lt_trichotomy b.toNat c.toNat with h2 | h2 | h2
      · have : a.toNat < c.toNat := by omega
        simp [this]
      · have : a.toNat < c.toNat := by omega
        simp [this]
      · simp [Nat.lt_asymm h2, h2] at h23
    · rcases Nat.lt_trichotomy b.toNat c.toNat with h2 | h2 | h2
      · have : a.toNat < c.toNat := by omega
        simp [this]
      · have hab : ¬ a.toNat < b.toNat := by omega
        have hba : ¬ b.toNat < a.toNat := by omega
        have hbc : ¬ b.toNat < c.toNat := by omega
        have hcb : ¬ c.toNat < b.toNat := by omega
        have hac : ¬ a.toNat < c.toNat := by omega
        have hca : ¬ c.toNat < a.toNat := by omega
        simp only [if_neg hab, if_neg hba] at h12
        simp only [if_neg hbc, if_neg hcb] at h23
        simp only [if_neg hac, if_neg hca]
        exact charListLe_trans h12 h23
      · simp [Nat.lt_asymm h2, h2] at h23
    · simp [Nat.lt_asymm h1, h1] at h12

theorem charListLe_antisymm : ∀ {l1 l2 : List Char},
    charListLe l1 l2 = true → charListLe l2 l1 = true → l1 = l2
  | [], [], _, _ => rfl
  | [], _ :: _, _, h21 => by simp [charListLe] at h21
  | _ :: _, [], h12, _ => by simp [charListLe] at h12
  | a :: as, b :: bs, h12, h21 => by
    simp only [charListLe] at h12 h21
    rcases Nat.lt_trichotomy a.toNat b.toNat with h | h | h
    · simp [Nat.lt_asymm h, h] at h21
    · have hab : ¬ a.toNat < b.toNat := by omega
      have hba : ¬ b.toNat < a.toNat := by omega
      simp only [if_neg hab, if_neg hba] at h12 h21
      have hchar : a = b := Char.ext (UInt32.ext h)
      rw [hchar, charListLe_antisymm h12 h21]
    · simp [Nat.lt_asymm h, h] at h12

theorem charListLe_refl : ∀ l : List Char, charListLe l l = true
  | [] => rfl
  | a :: as => by
    simp only [charListLe, Nat.lt_irrefl, if_false]
    exact charListLe_refl as

theorem charListLe_append_self : ∀ (l r : List Char), charListLe l (l ++ r) = true
  | [], r => by cases r <;> rfl
  | a :: as, r => by
    simp only [List.cons_append, charListLe, Nat.lt_irrefl, if_false]
    exact charListLe_append_self as r

instance : IsTotal String strLeP := ⟨fun a b => charListLe_total a.data b.data⟩

instance : IsTrans String strLeP := ⟨fun _ _ _ h1 h2 => charListLe_trans h1 h2⟩

theorem strLeP_antisymm {a b : String} (h1 : strLeP a b) (h2 : strLeP b a) : a = b :=
  String.ext (charListLe_antisymm h1 h2)

theorem strLeP_refl (a : String) : strLeP a a := charListLe_refl a.data

theorem strLeP_append_self (a suffix : String) : strLeP a (a ++ suffix) := by
  show charListLe a.data (a ++ suffix).data = true
  rw [String.data_append]
  exact charListLe_append_self a.data suffix.data

theorem ne_append_self (a suffix : String) (h : suffix ≠ "") : a ≠ a ++ suffix := by
  intro he
  apply h
  have hd : a.data = a.data ++ suffix.data := by
    conv_lhs => rw [he]
    exact String.data_append a suffix
  have : suffix.data = [] := by
    have := congrArg List.length hd
    simp only [List.length_append] at this
    have : suffix.data.length = 0 := by omega
    exact List.length_eq_zero.mp this
  exact String.ext this

/-! ### Dictionary lemmas -/

theorem dictGet_dictSet_self (d : List (String × AliasTarget)) (a : String) (t : AliasTarget) :
    dictGet (dictSet d a t) a = some t := by
  induction d with
  | nil => simp [dictSet, dictGet]
  | cons kv rest ih =>
    obtain ⟨k, v⟩ := kv
    by_cases h : k = a
    · simp [dictSet, dictGet, h]
    · simp [dictSet, dictGet, h, ih]

theorem dictGet_dictSet_ne (d : List (String × AliasTarget)) (a b : String) (t : AliasTarget)
    (h : a ≠ b) : dictGet (dictSet d a t) b = dictGet d b := by
  induction d with
  | nil => simp [dictSet, dictGet, h]
  | cons kv rest ih =>
    obtain ⟨k, v⟩ := kv
    by_cases hk : k = a
    · subst hk
      simp [dictSet, dictGet, h]
    · simp [dictSet, dictGet, hk, ih]

theorem dictKeys_dictSet (d : List (String × AliasTarget)) (a : String) (t : AliasTarget) :
    dictKeys (dictSet d a t) =
      if a ∈ dictKeys d then dictKeys d else dictKeys d ++ [a] := by
  induction d with
  | nil => simp [dictSet, dictKeys]
  | cons kv rest ih =>
    obtain ⟨k, v⟩ := kv
    by_cases h : k = a
    · subst h
      simp [dictSet, dictKeys]
    · have hne : ¬ a = k := fun he => h he.symm
      simp only [dictSet, if_neg h, dictKeys, List.map_cons, List.mem_cons]
      simp only [dictKeys] at ih
      rw [ih]
      by_cases hm : a ∈ rest.map Prod.fst
      · simp [hm, hne]
      · simp [hm, hne]

theorem tableInv_addAlias (s : ModuleAliasState) (a : String) (t : AliasTarget)
    (h : tableInv s) : tableInv (addAlias s a t) := by
  obtain ⟨_, h2⟩ := h
  constructor
  · rfl
  · show (dictKeys (dictSet s.moduleAliases a t)).Nodup
    rw [dictKeys_dictSet]
    by_cases hm : a ∈ dictKeys s.moduleAliases
    · simpa [hm] using h2
    · simp only [if_neg hm]
      simp [List.nodup_append, h2, hm, List.disjoint_singleton]

theorem tableInv_applyRegistrations (s : ModuleAliasState)
    (ops : List (String × AliasTarget)) (h : tableInv s) :
    tableInv (applyRegistrations s ops) := by
  induction ops generalizing s with
  | nil => exact h
  | cons op rest ih => exact ih _ (tableInv_addAlias _ _ _ h)

/-! ### Alias-matching loop lemmas -/

theorem findMatchingAlias_eq_none {l : List String} {req : String}
    (h : findMatchingAlias l req = none) : ∀ a ∈ l, isPathMatchesAlias req a = false := by
  induction l with
  | nil => simp
  | cons a rest ih =>
    cases hr : findMatchingAlias rest req with
    | some b => simp [findMatchingAlias, hr] at h
    | none =>
      simp only [findMatchingAlias, hr] at h
      intro x hx
      rcases List.mem_cons.mp hx with he | hm
      · subst he
        by_cases hm2 : isPathMatchesAlias req x = true
        · simp [hm2] at h
        · exact Bool.not_eq_true _ ▸ (Bool.eq_false_iff.mpr (fun hc => hm2 hc))
      · exact ih hr x hm

theorem findMatchingAlias_mem {l : List String} {req c : String}
    (h : findMatchingAlias l req = some c) : c ∈ l ∧ isPathMatchesAlias req c = true := by
  induction l with
  | nil => simp [findMatchingAlias] at h
  | cons a rest ih =>
    cases hr : findMatchingAlias rest req with
    | some b =>
      simp only [findMatchingAlias, hr] at h
      injection h with hbc
      subst hbc
      obtain ⟨hmem, hmatch⟩ := ih hr
      exact ⟨List.mem_cons_of_mem _ hmem, hmatch⟩
    | none =>
      simp only [findMatchingAlias, hr] at h
      by_cases hm : isPathMatchesAlias req a = true
      · simp only [if_pos hm] at h
        injection h with hbc
        subst hbc
        exact ⟨List.mem_cons_self _ _, hm⟩
      · simp [hm] at h

theorem findMatchingAlias_max {l : List String} {req c : String}
    (hp : l.Pairwise (fun a b => strLeP a b ∧ a ≠ b))
    (h : findMatchingAlias l req = some c) :
    ∀ b ∈ l, isPathMatchesAlias req b = true → strLeP b c := by
  induction l with
  | nil => simp
  | cons a rest ih =>
    have hpa := List.pairwise_cons.mp hp
    cases hr : findMatchingAlias rest req with
    | some b0 =>
      simp only [findMatchingAlias, hr] at h
      injection h with hbc
      subst hbc
      intro b hb hmb
      rcases List.mem_cons.mp hb with he | hm
      · subst he
        have hcmem := (findMatchingAlias_mem hr).1
        exact (hpa.1 _ hcmem).1
      · exact ih hpa.2 hr b hm hmb
    | none =>
      simp only [findMatchingAlias, hr] at h
      by_cases hma : isPathMatchesAlias req a = true
      · simp only [if_pos hma] at h
        injection h with hbc
        subst hbc
        intro b hb hmb
        rcases List.mem_cons.mp hb with he | hm
        · subst he
          exact strLeP_refl b
        · exact absurd hmb (by simp [findMatchingAlias_eq_none hr b hm])
      · simp [hma] at h

theorem findMatchingAlias_isSome {l : List String} {req a : String}
    (ha : a ∈ l) (hm : isPathMatchesAlias req a = true) :
    ∃ c, findMatchingAlias l req = some c := by
  cases h : findMatchingAlias l req with
  | none => exact absurd hm (by simp [findMatchingAlias_eq_none h a ha])
  | some c => exact ⟨c, rfl⟩

/-! ### Claim C7 -/

/-- C7: after every sequence of `addAlias`/`addAliases` registrations the
sorted name index is exactly the ascending-sorted key set of the alias
dictionary and alias names are unique (the table invariant never
diverges); an `addAliases` call is exactly the sequence of `addAlias`
calls over its entries; and re-adding an existing name overwrites its
target, so the table afterwards maps the name to the most recently
added target — the value every subsequent resolution reads. -/
theorem c7_sorted_index_invariant (s0 : ModuleAliasState)
    (ops : List (String × AliasTarget)) (h : tableInv s0) :
    tableInv (applyRegistrations s0 ops)
      ∧ (∀ (s : ModuleAliasState) (entries : List (String × AliasTarget)),
          addAliases s entries = applyRegistrations s entries)
      ∧ (∀ (s : ModuleAliasState) (a : String) (t : AliasTarget),
          dictGet (addAlias s a t).moduleAliases a = some t) :=
  ⟨tableInv_applyRegistrations s0 ops h,
   fun _ _ => rfl,
   fun s a t => dictGet_dictSet_self s.moduleAliases a t⟩

/-- Witness for C7: a concrete burst that re-adds the name `"@b"`. -/
theorem c7_sorted_index_invariant_witness :
    tableInv emptyState
      ∧ (tableInv (applyRegistrations emptyState
            [("@b", .static "/B"), ("@a", .static "/A"), ("@b", .static "/B2")])
          ∧ (∀ (s : ModuleAliasState) (entries : List (String × AliasTarget)),
              addAliases s entries = applyRegistrations s entries)
          ∧ (∀ (s : ModuleAliasState) (a : String) (t : AliasTarget),
              dictGet (addAlias s a t).moduleAliases a = some t)) :=
  ⟨⟨rfl, List.nodup_nil⟩,
   c7_sorted_index_invariant emptyState
     [("@b", .static "/B"), ("@a", .static "/A"), ("@b", .static "/B2")]
     ⟨rfl, List.nodup_nil⟩⟩

/-! ### Claim C1 -/

/-- C1: when the table invariant holds and the table contains an alias
`a1` together with a proper extension `a1 ++ suffix`, every request that
boundary-matches the longer alias is resolved by walking the sorted
index in descending order and stopping at the first match: the loop
yields exactly one alias `c`; `c` boundary-matches the request, is at
least the longer alias in sort order — hence never the shorter `a1` —,
dominates every matching alias, equals the longer alias whenever no
third alias matches, and the request is rewritten exactly once, with
`c`'s target. -/
theorem c1_longest_match_wins (s : ModuleAliasState) (a1 suffix req : String)
    (hz : suffix ≠ "") (hinv : tableInv s)
    (h1 : a1 ∈ dictKeys s.moduleAliases)
    (h2 : a1 ++ suffix ∈ dictKeys s.moduleAliases)
    (hm : isPathMatchesAlias req (a1 ++ suffix) = true) :
    ∃ c, findMatchingAlias s.moduleAliasNames req = some c
      ∧ isPathMatchesAlias req c = true
      ∧ strLeP (a1 ++ suffix) c ∧ c ≠ a1
      ∧ (∀ b ∈ s.moduleAliasNames, isPathMatchesAlias req b = true → strLeP b c)
      ∧ ((∀ b ∈ s.moduleAliasNames, isPathMatchesAlias req b = true →
            b = a1 ∨ b = a1 ++ suffix) → c = a1 ++ suffix)
      ∧ (∀ (parent : Option NodeModuleRec) (t : String),
          dictGet s.moduleAliases c = some (.static t) →
          rewriteRequest s req parent = .ok (join2 t (substrFrom req c.length))) := by
  obtain ⟨hn, hnd⟩ := hinv
  have hperm : s.moduleAliasNames.Perm (dictKeys s.moduleAliases) := by
    rw [hn]
    exact List.perm_insertionSort strLeP _
  have h2n : a1 ++ suffix ∈ s.moduleAliasNames := hperm.mem_iff.mpr h2
  have hsorted : s.moduleAliasNames.Pairwise strLeP := by
    rw [hn]
    exact List.sorted_insertionSort strLeP _
  have hnd2 : s.moduleAliasNames.Nodup := hperm.nodup_iff.mpr hnd
  have hpw : s.moduleAliasNames.Pairwise (fun a b => strLeP a b ∧ a ≠ b) :=
    hsorted.and hnd2
  obtain ⟨c, hfind⟩ := findMatchingAlias_isSome h2n hm
  obtain ⟨hcmem, hcmatch⟩ := findMatchingAlias_mem hfind
  have hmax := findMatchingAlias_max hpw hfind
  have hge : strLeP (a1 ++ suffix) c := hmax _ h2n hm
  have hne : c ≠ a1 := by
    intro he
    subst he
    have hle : strLeP c (c ++ suffix) := strLeP_append_self c suffix
    have : c = c ++ suffix := strLeP_antisymm hle hge
    exact ne_append_self c suffix hz this
  refine ⟨c, hfind, hcmatch, hge, hne, hmax, ?_, ?_⟩
  · intro hb
    rcases hb c hcmem hcmatch with he | he
    · exact absurd he hne
    · exact he
  · intro parent t hget
    simp only [rewriteRequest, hfind, hget]

/-- Witness for C1 at the spec's own example: aliases `"@a"`, `"@a/sub"`
and request `"@a/sub/file"`. -/
theorem c1_longest_match_wins_witness :
    (("/sub" : String) ≠ ""
        ∧ tableInv overlapState
        ∧ "@a" ∈ dictKeys overlapState.moduleAliases
        ∧ "@a" ++ "/sub" ∈ dictKeys overlapState.moduleAliases
        ∧ isPathMatchesAlias "@a/sub/file" ("@a" ++ "/sub") = true)
      ∧ (∃ c, findMatchingAlias overlapState.moduleAliasNames "@a/sub/file" = some c
          ∧ isPathMatchesAlias "@a/sub/file" c = true
          ∧ strLeP ("@a" ++ "/sub") c ∧ c ≠ "@a"
          ∧ (∀ b ∈ overlapState.moduleAliasNames,
              isPathMatchesAlias "@a/sub/file" b = true → strLeP b c)
          ∧ ((∀ b ∈ overlapState.moduleAliasNames,
                isPathMatchesAlias "@a/sub/file" b = true →
                b = "@a" ∨ b = "@a" ++ "/sub") → c = "@a" ++ "/sub")
          ∧ (∀ (parent : Option NodeModuleRec) (t : String),
              dictGet overlapState.moduleAliases c = some (.static t) →
              rewriteRequest overlapState "@a/sub/file" parent =
                .ok (join2 t (substrFrom "@a/sub/file" c.length)))) :=
  ⟨⟨by decide, ⟨by decide, by decide⟩, by decide, by decide, by decide⟩,
   c1_longest_match_wins overlapState "@a" "/sub" "@a/sub/file"
     (by decide) ⟨by decide, by decide⟩ (by decide) (by decide) (by decide)⟩

/-! ### Lemmas about splitting and joining on the separator -/

theorem splitSlash_ne_nil : ∀ l : List Char, splitSlash l ≠ []
  | [] => by simp [splitSlash]
  | c :: rest => by
    simp only [splitSlash]
    by_cases h : c = '/'
    · simp [h]
    · rw [if_neg h]
      cases hr : splitSlash rest with
      | nil => simp
      | cons g gs => simp

theorem splitSlash_cons_slash (rest : List Char) :
    splitSlash ('/' :: rest) = [] :: splitSlash rest := by
  simp [splitSlash]

theorem splitSlash_cons_ne (c : Char) (rest g : List Char) (gs : List (List Char))
    (h : c ≠ '/') (hr : splitSlash rest = g :: gs) :
    splitSlash (c :: rest) = (c :: g) :: gs := by
  simp [splitSlash, h, hr]

theorem splitSlash_shape (l : List Char) : ∃ g gs, splitSlash l = g :: gs := by
  cases hx : splitSlash l with
  | nil => exact absurd hx (splitSlash_ne_nil l)
  | cons g gs => exact ⟨g, gs, rfl⟩

theorem splitSlash_append (l1 l2 : List Char) :
    splitSlash (l1 ++ '/' :: l2) = splitSlash l1 ++ splitSlash l2 := by
  induction l1 with
  | nil => simp [splitSlash]
  | cons c l1' ih =>
    by_cases h : c = '/'
    · subst h
      rw [List.cons_append, splitSlash_cons_slash, splitSlash_cons_slash, ih, List.cons_append]
    · obtain ⟨g, gs, hr⟩ := splitSlash_shape l1'
      have h2 : splitSlash (l1' ++ '/' :: l2) = g :: (gs ++ splitSlash l2) := by
        rw [ih, hr]
        rfl
      rw [List.cons_append, splitSlash_cons_ne c _ g (gs ++ splitSlash l2) h h2,
        splitSlash_cons_ne c l1' g gs h hr, List.cons_append]

theorem splitSlash_no_slash : ∀ l : List Char, '/' ∉ l → splitSlash l = [l]
  | [], _ => rfl
  | c :: rest, h => by
    have hc : c ≠ '/' := fun he => h (he ▸ List.mem_cons_self c rest)
    have hrest : '/' ∉ rest := fun hm => h (List.mem_cons_of_mem _ hm)
    exact splitSlash_cons_ne c rest rest [] hc (splitSlash_no_slash rest hrest)

theorem joinSegs_cons_ne_nil (a : List Char) {L : List (List Char)} (h : L ≠ []) :
    joinSegs (a :: L) = a ++ '/' :: joinSegs L := by
  cases L with
  | nil => exact absurd rfl h
  | cons b bs => rfl

theorem joinSegs_splitSlash : ∀ l : List Char, joinSegs (splitSlash l) = l
  | [] => rfl
  | c :: rest => by
    obtain ⟨g, gs, hr⟩ := splitSlash_shape rest
    have hrec := joinSegs_splitSlash rest
    by_cases h : c = '/'
    · subst h
      rw [splitSlash_cons_slash, joinSegs_cons_ne_nil [] (splitSlash_ne_nil rest), hrec]
      rfl
    · rw [splitSlash_cons_ne c rest g gs h hr]
      rw [hr] at hrec
      cases gs with
      | nil =>
        show c :: g = c :: rest
        rw [show joinSegs [g] = g from rfl] at hrec
        rw [hrec]
      | cons g2 gs2 =>
        rw [joinSegs_cons_ne_nil (c :: g) (List.cons_ne_nil _ _)]
        rw [joinSegs_cons_ne_nil g (List.cons_ne_nil _ _)] at hrec
        rw [← hrec]
        simp

theorem joinSegs_append (A B : List (List Char)) (hA : A ≠ []) (hB : B ≠ []) :
    joinSegs (A ++ B) = joinSegs A ++ '/' :: joinSegs B := by
  induction A with
  | nil => exact absurd rfl hA
  | cons a A' ih =>
    cases A' with
    | nil =>
      simp only [List.cons_append, List.nil_append]
      rw [joinSegs_cons_ne_nil a hB]
      rfl
    | cons a2 A2 =>
      have hA2 : (a2 :: A2 : List (List Char)) ≠ [] := List.cons_ne_nil _ _
      have happ : (a2 :: A2) ++ B ≠ [] := by simp
      rw [List.cons_append, joinSegs_cons_ne_nil a happ, ih hA2,
        joinSegs_cons_ne_nil a hA2]
      simp

theorem joinSegs_head? (s : List Char) (rest : List (List Char)) (hs : s ≠ []) :
    (joinSegs (s :: rest)).head? = s.head? := by
  cases rest with
  | nil => rfl
  | cons b bs =>
    rw [joinSegs_cons_ne_nil s (List.cons_ne_nil b bs)]
    exact List.head?_append_of_ne_nil s hs

theorem joinSegs_getLast? : ∀ (segs : List (List Char)) (s : List Char), s ≠ [] →
    (joinSegs (segs ++ [s])).getLast? = s.getLast?
  | [], s, _ => by simp [joinSegs]
  | a :: rest, s, hs => by
    have hne : rest ++ [s] ≠ [] := by simp
    rw [List.cons_append, joinSegs_cons_ne_nil a hne]
    have ih := joinSegs_getLast? rest s hs
    have hJ : joinSegs (rest ++ [s]) ≠ [] := by
      intro he
      rw [he, List.getLast?_eq_getLast s hs] at ih
      simp at ih
    calc (a ++ '/' :: joinSegs (rest ++ [s])).getLast?
        = ('/' :: joinSegs (rest ++ [s])).getLast? :=
          List.getLast?_append_of_ne_nil a (List.cons_ne_nil _ _)
      _ = (joinSegs (rest ++ [s])).getLast? := by
          rw [show ('/' :: joinSegs (rest ++ [s])) = ['/'] ++ joinSegs (rest ++ [s]) from rfl]
          exact List.getLast?_append_of_ne_nil _ hJ
      _ = s.getLast? := ih

/-! ### Lemmas about normalization of clean paths -/

theorem cleanSeg_spec {s : List Char} (h : cleanSeg s = true) :
    s ≠ [] ∧ s ≠ ['.'] ∧ s ≠ ['.', '.'] ∧ '/' ∉ s := by
  simpa [cleanSeg, Bool.and_eq_true, decide_eq_true_eq, and_assoc] using h

theorem cleanRel_segs {x : List Char} (h : cleanRelL x = true) :
    ∀ s ∈ splitSlash x, cleanSeg s = true := by
  simpa [cleanRelL, List.all_eq_true] using h

theorem cleanRel_ne_nil {x : List Char} (h : cleanRelL x = true) : x ≠ [] := by
  intro he
  subst he
  have := cleanRel_segs h [] (by simp [splitSlash])
  simp [cleanSeg] at this

theorem normSegs_clean (aa : Bool) : ∀ (segs acc : List (List Char)),
    (∀ s ∈ segs, s = [] ∨ cleanSeg s = true) →
    normSegs aa acc segs = acc.reverse ++ segs.filter (fun s => decide (s ≠ []))
  | [], acc, _ => by simp [normSegs]
  | seg :: rest, acc, h => by
    have hrest : ∀ s ∈ rest, s = [] ∨ cleanSeg s = true :=
      fun s hs => h s (List.mem_cons_of_mem _ hs)
    rcases h seg (List.mem_cons_self _ _) with he | hc
    · subst he
      simp only [normSegs, if_pos (Or.inl rfl)]
      rw [normSegs_clean aa rest acc hrest]
      simp
    · obtain ⟨h1, h2, h3, _⟩ := cleanSeg_spec hc
      have hcond : ¬ (seg = [] ∨ seg = ['.']) := fun hor => hor.elim h1 h2
      simp only [normSegs, if_neg hcond, if_neg h3]
      rw [normSegs_clean aa rest (seg :: acc) hrest]
      simp [h1, List.filter_cons]

theorem filter_ne_nil_of_clean {segs : List (List Char)}
    (h : ∀ s ∈ segs, cleanSeg s = true) :
    segs.filter (fun s => decide (s ≠ [])) = segs :=
  List.filter_eq_self.mpr (fun s hs => decide_eq_true (cleanSeg_spec (h s hs)).1)

theorem cleanRel_head {x : List Char} (h : cleanRelL x = true) : x.head? ≠ some '/' := by
  obtain ⟨g, gs, hr⟩ := splitSlash_shape x
  have hclean := cleanRel_segs h g (by rw [hr]; exact List.mem_cons_self _ _)
  obtain ⟨hg1, _, _, hg4⟩ := cleanSeg_spec hclean
  have hx : x = joinSegs (g :: gs) := by rw [← hr, joinSegs_splitSlash]
  rw [hx, joinSegs_head? g gs hg1]
  intro hc
  exact hg4 (List.mem_of_mem_head? hc)

theorem cleanRel_getLast {x : List Char} (h : cleanRelL x = true) :
    x.getLast? ≠ some '/' := by
  have hne := splitSlash_ne_nil x
  have hdecomp := List.dropLast_append_getLast hne
  have hclean := cleanRel_segs h ((splitSlash x).getLast hne) (List.getLast_mem hne)
  obtain ⟨hg1, _, _, hg4⟩ := cleanSeg_spec hclean
  have hx : x = joinSegs ((splitSlash x).dropLast ++ [(splitSlash x).getLast hne]) := by
    rw [hdecomp, joinSegs_splitSlash]
  rw [hx, joinSegs_getLast? _ _ hg1]
  intro hc
  exact hg4 (List.mem_of_mem_getLast? hc)

theorem cleanPathL_cases {t : List Char} (h : cleanPathL t = true) :
    (t.head? ≠ some '/' ∧ cleanRelL t = true) ∨
      (∃ t', t = '/' :: t' ∧ cleanRelL t' = true) := by
  by_cases hh : t.head? = some '/'
  · right
    cases t with
    | nil => simp at hh
    | cons c rest =>
      have hc : c = '/' := by simpa using hh
      subst hc
      refine ⟨rest, rfl, ?_⟩
      simpa [cleanPathL, hh] using h
  · left
    exact ⟨hh, by simpa [cleanPathL, hh] using h⟩

theorem cleanPath_ne_nil {t : List Char} (h : cleanPathL t = true) : t ≠ [] := by
  rcases cleanPathL_cases h with ⟨_, hrel⟩ | ⟨t', he, _⟩
  · exact cleanRel_ne_nil hrel
  · rw [he]
    exact List.cons_ne_nil _ _

theorem normalizeL_rel_core (p : List Char) (hne : p ≠ [])
    (hhead : p.head? ≠ some '/') (hlast : p.getLast? ≠ some '/')
    (hsegs : ∀ s ∈ splitSlash p, s = [] ∨ cleanSeg s = true)
    (hbody : joinSegs ((splitSlash p).filter (fun s => decide (s ≠ []))) ≠ []) :
    normalizeL p = joinSegs ((splitSlash p).filter (fun s => decide (s ≠ []))) := by
  simp only [normalizeL, if_neg hne, if_neg hhead, if_neg hlast]
  rw [normSegs_clean true _ [] hsegs]
  simp only [List.reverse_nil, List.nil_append]
  rw [if_neg hbody]

theorem normalizeL_abs_core (p : List Char)
    (hlast : ('/' :: p).getLast? ≠ some '/')
    (hsegs : ∀ s ∈ splitSlash p, s = [] ∨ cleanSeg s = true)
    (hbody : joinSegs ((splitSlash p).filter (fun s => decide (s ≠ []))) ≠ []) :
    normalizeL ('/' :: p) =
      '/' :: joinSegs ((splitSlash p).filter (fun s => decide (s ≠ []))) := by
  have hne : ('/' :: p : List Char) ≠ [] := List.cons_ne_nil _ _
  have hh : ('/' :: p : List Char).head? = some '/' := rfl
  have hsegs2' : ∀ s ∈ ([] :: splitSlash p), s = [] ∨ cleanSeg s = true := by
    intro s hs
    rcases List.mem_cons.mp hs with he | hm
    · exact Or.inl he
    · exact hsegs s hm
  have hfc : ([] :: splitSlash p).filter (fun s => decide (s ≠ [])) =
      (splitSlash p).filter (fun s => decide (s ≠ [])) := by simp
  simp only [normalizeL, if_neg hne, if_pos hh, if_neg hlast]
  rw [splitSlash_cons_slash, normSegs_clean false _ [] hsegs2']
  simp only [List.reverse_nil, List.nil_append]
  rw [hfc, if_neg hbody]

theorem normalizeL_cleanRel {x : List Char} (h : cleanRelL x = true) :
    normalizeL x = x := by
  have hsegs := cleanRel_segs h
  have hfilter := filter_ne_nil_of_clean hsegs
  have hjoin : joinSegs ((splitSlash x).filter (fun s => decide (s ≠ []))) = x := by
    rw [hfilter, joinSegs_splitSlash]
  rw [normalizeL_rel_core x (cleanRel_ne_nil h) (cleanRel_head h) (cleanRel_getLast h)
    (fun s hs => Or.inr (hsegs s hs)) (by rw [hjoin]; exact cleanRel_ne_nil h), hjoin]

theorem normalizeL_cleanAbs {x : List Char} (h : cleanRelL x = true) :
    normalizeL ('/' :: x) = '/' :: x := by
  have hsegs := cleanRel_segs h
  have hfilter := filter_ne_nil_of_clean hsegs
  have hjoin : joinSegs ((splitSlash x).filter (fun s => decide (s ≠ []))) = x := by
    rw [hfilter, joinSegs_splitSlash]
  have hlast : ('/' :: x : List Char).getLast? ≠ some '/' := by
    rw [show ('/' :: x : List Char) = ['/'] ++ x from rfl,
      List.getLast?_append_of_ne_nil _ (cleanRel_ne_nil h)]
    exact cleanRel_getLast h
  rw [normalizeL_abs_core x hlast (fun s hs => Or.inr (hsegs s hs))
    (by rw [hjoin]; exact cleanRel_ne_nil h), hjoin]

theorem normalizeL_cleanPath {t : List Char} (h : cleanPathL t = true) :
    normalizeL t = t := by
  rcases cleanPathL_cases h with ⟨_, hrel⟩ | ⟨t', he, hrel⟩
  · exact normalizeL_cleanRel hrel
  · rw [he]
    exact normalizeL_cleanAbs hrel

/-! ### Lemmas about joining clean paths -/

theorem filter_clean_mid {A B : List Char} (hA : cleanRelL A = true) (hB : cleanRelL B = true) :
    (splitSlash A ++ [] :: splitSlash B).filter (fun s => decide (s ≠ [])) =
      splitSlash A ++ splitSlash B := by
  have h1 : ([] :: splitSlash B).filter (fun s => decide (s ≠ [])) =
      (splitSlash B).filter (fun s => decide (s ≠ [])) := by simp
  rw [List.filter_append, filter_ne_nil_of_clean (cleanRel_segs hA), h1,
    filter_ne_nil_of_clean (cleanRel_segs hB)]

theorem joinL_clean_empty {t : List Char} (h : cleanPathL t = true) : joinL t [] = t := by
  have hne := cleanPath_ne_nil h
  have hp : ([t, []] : List (List Char)).filter (fun s => decide (s ≠ [])) = [t] := by
    simp [hne]
  simp only [joinL, hp]
  rw [if_neg (by simp : ¬ ([t] : List (List Char)) = [])]
  exact normalizeL_cleanPath h

theorem joinL_clean_append {t x : List Char} (ht : cleanPathL t = true)
    (hx : cleanRelL x = true) : joinL t ('/' :: x) = t ++ '/' :: x := by
  have htne := cleanPath_ne_nil ht
  have hxne := cleanRel_ne_nil hx
  have hp : ([t, '/' :: x] : List (List Char)).filter (fun s => decide (s ≠ [])) =
      [t, '/' :: x] := by
    simp [htne]
  simp only [joinL, hp]
  rw [if_neg (by simp : ¬ ([t, '/' :: x] : List (List Char)) = [])]
  rw [show joinSegs [t, '/' :: x] = t ++ '/' :: ('/' :: x) from rfl]
  rcases cleanPathL_cases ht with ⟨hhead, hrel⟩ | ⟨t', he, hrel⟩
  · have hsplit : splitSlash (t ++ '/' :: ('/' :: x)) = splitSlash t ++ [] :: splitSlash x := by
      rw [splitSlash_append, splitSlash_cons_slash]
    have hjoin : joinSegs (splitSlash t ++ splitSlash x) = t ++ '/' :: x := by
      rw [joinSegs_append _ _ (splitSlash_ne_nil t) (splitSlash_ne_nil x),
        joinSegs_splitSlash, joinSegs_splitSlash]
    have hhead2 : (t ++ '/' :: ('/' :: x)).head? ≠ some '/' := by
      rw [List.head?_append_of_ne_nil t htne]
      exact hhead
    have hlast2 : (t ++ '/' :: ('/' :: x)).getLast? ≠ some '/' := by
      rw [List.getLast?_append_of_ne_nil t (List.cons_ne_nil _ _),
        show ('/' :: '/' :: x : List Char) = ['/', '/'] ++ x from rfl,
        List.getLast?_append_of_ne_nil _ hxne]
      exact cleanRel_getLast hx
    have hne2 : t ++ '/' :: ('/' :: x) ≠ [] := by simp
    have hsegsok : ∀ s ∈ splitSlash (t ++ '/' :: ('/' :: x)), s = [] ∨ cleanSeg s = true := by
      rw [hsplit]
      intro s hs
      rcases List.mem_append.mp hs with hm | hm
      · exact Or.inr (cleanRel_segs hrel s hm)
      · rcases List.mem_cons.mp hm with he2 | hm2
        · exact Or.inl he2
        · exact Or.inr (cleanRel_segs hx s hm2)
    have hbody : joinSegs ((splitSlash (t ++ '/' :: ('/' :: x))).filter
        (fun s => decide (s ≠ []))) = t ++ '/' :: x := by
      rw [hsplit, filter_clean_mid hrel hx, hjoin]
    rw [normalizeL_rel_core _ hne2 hhead2 hlast2 hsegsok (by rw [hbody]; simp), hbody]
  · subst he
    rw [show ('/' :: t') ++ '/' :: ('/' :: x) = '/' :: (t' ++ '/' :: ('/' :: x)) from rfl]
    have ht'ne := cleanRel_ne_nil hrel
    have hsplit : splitSlash (t' ++ '/' :: ('/' :: x)) = splitSlash t' ++ [] :: splitSlash x := by
      rw [splitSlash_append, splitSlash_cons_slash]
    have hjoin : joinSegs (splitSlash t' ++ splitSlash x) = t' ++ '/' :: x := by
      rw [joinSegs_append _ _ (splitSlash_ne_nil t') (splitSlash_ne_nil x),
        joinSegs_splitSlash, joinSegs_splitSlash]
    have hlast2 : ('/' :: (t' ++ '/' :: ('/' :: x)) : List Char).getLast? ≠ some '/' := by
      rw [show ('/' :: (t' ++ '/' :: ('/' :: x)) : List Char) =
          ['/'] ++ (t' ++ '/' :: ('/' :: x)) from rfl,
        List.getLast?_append_of_ne_nil _ (by simp),
        List.getLast?_append_of_ne_nil t' (List.cons_ne_nil _ _),
        show ('/' :: '/' :: x : List Char) = ['/', '/'] ++ x from rfl,
        List.getLast?_append_of_ne_nil _ hxne]
      exact cleanRel_getLast hx
    have hsegsok : ∀ s ∈ splitSlash (t' ++ '/' :: ('/' :: x)), s = [] ∨ cleanSeg s = true := by
      rw [hsplit]
      intro s hs
      rcases List.mem_append.mp hs with hm | hm
      · exact Or.inr (cleanRel_segs hrel s hm)
      · rcases List.mem_cons.mp hm with he2 | hm2
        · exact Or.inl he2
        · exact Or.inr (cleanRel_segs hx s hm2)
    have hbody : joinSegs ((splitSlash (t' ++ '/' :: ('/' :: x))).filter
        (fun s => decide (s ≠ []))) = t' ++ '/' :: x := by
      rw [hsplit, filter_clean_mid hrel hx, hjoin]
    rw [normalizeL_abs_core _ hlast2 hsegsok (by rw [hbody]; simp), hbody]
    rfl

/-! ### String-level corollaries -/

theorem join2_clean_empty (t : String) (h : CleanPath t) : join2 t "" = t :=
  String.ext (joinL_clean_empty h)

theorem join2_clean_append (t x : String) (ht : CleanPath t) (hx : CleanRel x) :
    join2 t ("/" ++ x) = t ++ "/" ++ x := by
  apply String.ext
  show joinL t.data ("/" ++ x).data = (t ++ "/" ++ x).data
  rw [String.data_append, String.data_append, String.data_append,
    show ("/" : String).data = ['/'] from rfl]
  rw [show (['/'] ++ x.data : List Char) = '/' :: x.data from rfl]
  rw [joinL_clean_append ht hx]
  simp

theorem isPathMatchesAlias_self (a : String) : isPathMatchesAlias a a = true := by
  simp [isPathMatchesAlias, List.take_length]

theorem isPathMatchesAlias_slash (a x : String) :
    isPathMatchesAlias (a ++ "/" ++ x) a = true := by
  have hdata : (a ++ "/" ++ x).data = a.data ++ '/' :: x.data := by
    rw [String.data_append, String.data_append]
    simp [show ("/" : String).data = ['/'] from rfl]
  have h1 : (a.data ++ '/' :: x.data).take a.data.length = a.data := List.take_left _ _
  have h2 : (a.data ++ '/' :: x.data)[a.length]? = some '/' := by
    rw [show a.length = a.data.length from rfl, List.getElem?_append_right (le_refl _)]
    simp
  simp [isPathMatchesAlias, hdata, h1, h2]

theorem isPathMatchesAlias_noslash (a b : String) (hb : b ≠ "")
    (hh : b.data.head? ≠ some '/') : isPathMatchesAlias (a ++ b) a = false := by
  have hbd : b.data ≠ [] := fun hd => hb (String.ext (hd.trans rfl))
  have h2 : ¬ (a ++ b).length = a.length := by
    rw [String.length_append]
    have : b.length ≠ 0 := fun h0 => hbd (List.length_eq_zero.mp h0)
    omega
  have h3 : (a ++ b).data[a.length]? ≠ some '/' := by
    rw [String.data_append, show a.length = a.data.length from rfl,
      List.getElem?_append_right (le_refl _)]
    simp only [Nat.sub_self]
    rw [← List.head?_eq_getElem?]
    exact hh
  have h4 : b.length ≠ 0 := fun h0 => hbd (List.length_eq_zero.mp h0)
  have h5 : (a.data ++ b.data)[a.length]? ≠ some '/' := by
    rw [← String.data_append]
    exact h3
  simp [isPathMatchesAlias, h2, h3, h4, h5]

theorem substrFrom_append_self (a b : String) : substrFrom (a ++ b) a.length = b := by
  apply String.ext
  show ((a ++ b).data).drop a.length = b.data
  rw [String.data_append, show a.length = a.data.length from rfl, List.drop_left]

theorem string_append_assoc (a b c : String) : a ++ b ++ c = a ++ (b ++ c) := by
  apply String.ext
  simp [String.data_append, List.append_assoc]

theorem string_append_empty (a : String) : a ++ "" = a := by
  apply String.ext
  simp [String.data_append]

theorem rewriteRequest_single_static (a t req : String) (parent : Option NodeModuleRec)
    (hm : isPathMatchesAlias req a = true) :
    rewriteRequest (singleAliasState a t) req parent =
      .ok (join2 t (substrFrom req a.length)) := by
  have hfind : findMatchingAlias [a] req = some a := by
    simp [findMatchingAlias, hm]
  have hget : dictGet [(a, AliasTarget.static t)] a = some (.static t) := by
    simp [dictGet]
  simp only [rewriteRequest, singleAliasState, hfind, hget]

theorem rewriteRequest_single_nomatch (a t req : String) (parent : Option NodeModuleRec)
    (hm : isPathMatchesAlias req a = false) :
    rewriteRequest (singleAliasState a t) req parent = .ok req := by
  have hfind : findMatchingAlias [a] req = none := by
    simp [findMatchingAlias, hm]
  simp only [rewriteRequest, singleAliasState, hfind]

/-! ### Claim C2 -/

/-- C2 (amended): the boundary-match predicate returns true iff the
request starts with the alias text and either is exactly the alias's
length or continues with `'/'`.  For a registered static alias `a -> t`
the requests `a`, `a ++ "/" ++ x` are rewritten, before delegating, to
`Path.join(t, remainder)` — which equals `t` and `t ++ "/" ++ x`
whenever the target `t` is a clean (already normalized, non-`"."`,
separator-terminated-free) path and the remainder is built from clean
segments — while a request `a ++ b` whose continuation does not start
with a separator is passed to the delegate unchanged. -/
theorem c2_boundary_match_rewrite (a t x b : String) (parent : Option NodeModuleRec)
    (ht : CleanPath t) (hx : CleanRel x) (hb : b ≠ "") (hbs : b.data.head? ≠ some '/') :
    (∀ path al : String, isPathMatchesAlias path al = true ↔
        (path.data.take al.data.length = al.data ∧
          (path.length = al.length ∨ path.data[al.length]? = some '/')))
      ∧ rewriteRequest (singleAliasState a t) a parent = .ok t
      ∧ rewriteRequest (singleAliasState a t) (a ++ "/" ++ x) parent = .ok (t ++ "/" ++ x)
      ∧ rewriteRequest (singleAliasState a t) (a ++ b) parent = .ok (a ++ b) := by
  refine ⟨?_, ?_, ?_, ?_⟩
  · intro path al
    simp [isPathMatchesAlias, Bool.and_eq_true, Bool.or_eq_true, decide_eq_true_eq]
  · have hsub : substrFrom a a.length = "" := by
      have h := substrFrom_append_self a ""
      rwa [string_append_empty a] at h
    rw [rewriteRequest_single_static a t a parent (isPathMatchesAlias_self a), hsub,
      join2_clean_empty t ht]
  · have hsub : substrFrom (a ++ "/" ++ x) a.length = "/" ++ x := by
      rw [string_append_assoc]
      exact substrFrom_append_self a ("/" ++ x)
    rw [rewriteRequest_single_static a t (a ++ "/" ++ x) parent (isPathMatchesAlias_slash a x),
      hsub, join2_clean_append t x ht hx]
  · exact rewriteRequest_single_nomatch a t (a ++ b) parent
      (isPathMatchesAlias_noslash a b hb hbs)

/-- C2 as literally stated is false on the code: with the alias
`"@root" -> "."` (the package's own documented configuration) the
request `"@root/lib"` is rewritten to `"lib"`, because `Path.join`
normalizes the joined string — not to `"." ++ "/lib" = "./lib"` as the
claim's `t/x` form demands. -/
theorem c2_counterexample :
    rewriteRequest (singleAliasState "@root" ".") "@root/lib" none = .ok "lib"
      ∧ ("." ++ "/lib" : String) = "./lib"
      ∧ ("lib" : String) ≠ "./lib" :=
  ⟨rfl, rfl, by decide⟩

/-- Witness for the amended C2 at the alias `"@c" -> "/srv"`, remainder
`"f/g"` and boundary-violating continuation `"x"`. -/
theorem c2_boundary_match_rewrite_witness :
    (CleanPath "/srv" ∧ CleanRel "f/g" ∧ ("x" : String) ≠ ""
        ∧ ("x" : String).data.head? ≠ some '/')
      ∧ ((∀ path al : String, isPathMatchesAlias path al = true ↔
            (path.data.take al.data.length = al.data ∧
              (path.length = al.length ∨ path.data[al.length]? = some '/')))
          ∧ rewriteRequest (singleAliasState "@c" "/srv") "@c" none = .ok "/srv"
          ∧ rewriteRequest (singleAliasState "@c" "/srv") ("@c" ++ "/" ++ "f/g") none =
              .ok ("/srv" ++ "/" ++ "f/g")
          ∧ rewriteRequest (singleAliasState "@c" "/srv") ("@c" ++ "x") none =
              .ok ("@c" ++ "x")) :=
  ⟨⟨by decide, by decide, by decide, by decide⟩,
   c2_boundary_match_rewrite "@c" "/srv" "f/g" "x" none
     (by decide) (by decide) (by decide) (by decide)⟩

/-! ### Claim C3 -/

theorem infix_of_mem_splitSlash : ∀ {l seg : List Char}, seg ∈ splitSlash l → seg <:+: l
  | [], seg, h => by
    simp [splitSlash] at h
    subst h
    exact List.nil_infix
  | c :: rest, seg, h => by
    obtain ⟨g, gs, hr⟩ := splitSlash_shape rest
    by_cases hc : c = '/'
    · subst hc
      rw [splitSlash_cons_slash] at h
      rcases List.mem_cons.mp h with he | hm
      · subst he
        exact List.nil_infix
      · exact List.infix_cons (infix_of_mem_splitSlash hm)
    · rw [splitSlash_cons_ne c rest g gs hc hr] at h
      rcases List.mem_cons.mp h with he | hm
      · subst he
        have hg : g <+: rest := by
          have hjoin := joinSegs_splitSlash rest
          rw [hr] at hjoin
          cases gs with
          | nil => exact ⟨[], by simpa using hjoin⟩
          | cons g2 gs2 =>
            rw [joinSegs_cons_ne_nil g (List.cons_ne_nil _ _)] at hjoin
            exact ⟨'/' :: joinSegs (g2 :: gs2), hjoin⟩
        exact List.IsPrefix.isInfix ((List.prefix_cons_inj c).mpr hg)
      · have : seg ∈ splitSlash rest := by
          rw [hr]
          exact List.mem_cons_of_mem _ hm
        exact List.infix_cons (infix_of_mem_splitSlash this)

/-- C3 (amended): the wrapped directory-list builder never mutates the
instance (in particular not the captured delegate) and its list output
is the delegate's baseline unchanged when the requesting directory
contains the substring `node_modules` — which in particular holds
whenever the directory truly lies inside a `node_modules` subtree
(some path segment is exactly `node_modules`) — and otherwise the Path
Set's entries prepended, in Path Set order, to the baseline. -/
theorem c3_directory_list (s : ModuleAliasState) (old : String → List String)
    (fromDir : String) :
    (specInsideDependencyDir fromDir = true →
        nodeModulePaths s old fromDir = (s, old fromDir))
      ∧ (("node_modules".data <:+: fromDir.data) →
          nodeModulePaths s old fromDir = (s, old fromDir))
      ∧ (¬ ("node_modules".data <:+: fromDir.data) →
          nodeModulePaths s old fromDir = (s, s.modulePaths ++ old fromDir)) := by
  refine ⟨?_, ?_, ?_⟩
  · intro h
    have hm : "node_modules".data ∈ splitSlash fromDir.data := by
      simpa [specInsideDependencyDir] using h
    have hinf := infix_of_mem_splitSlash hm
    simp [nodeModulePaths, hinf]
  · intro h
    simp [nodeModulePaths, h]
  · intro h
    simp [nodeModulePaths, h]

/-- C3 as stated is false on the code: `"/a/node_modulesX/b"` does not
lie inside a `node_modules` subtree (no path segment is
`node_modules`), yet the wrapped builder returns the baseline list
unchanged instead of prepending the Path Set entry, because the code
tests substring containment of `node_modules`. -/
theorem c3_counterexample :
    specInsideDependencyDir "/a/node_modulesX/b" = false
      ∧ nodeModulePaths pathState (fun _ => ["/base"]) "/a/node_modulesX/b" =
          (pathState, ["/base"])
      ∧ pathState.modulePaths ++ ["/base"] = ["/p", "/base"]
      ∧ (["/base"] : List String) ≠ ["/p", "/base"] := by
  refine ⟨by decide, ?_, rfl, by decide⟩
  have h : ("node_modules".data <:+: ("/a/node_modulesX/b" : String).data) := by decide
  simp [nodeModulePaths, h]

/-- Witness for the amended C3: a `from` inside a real `node_modules`
subtree keeps the baseline; a `from` outside gets the Path Set entry
prepended. -/
theorem c3_directory_list_witness :
    (specInsideDependencyDir "/a/node_modules/x" = true
        ∧ nodeModulePaths pathState (fun _ => ["/base"]) "/a/node_modules/x" =
            (pathState, ["/base"]))
      ∧ (¬ ("node_modules".data <:+: ("/other/dir" : String).data)
        ∧ nodeModulePaths pathState (fun _ => ["/base"]) "/other/dir" =
            (pathState, ["/p", "/base"])) := by
  refine ⟨⟨by decide, ?_⟩, ⟨by decide, ?_⟩⟩
  · exact (c3_directory_list pathState (fun _ => ["/base"]) "/a/node_modules/x").1 (by decide)
  · exact (c3_directory_list pathState (fun _ => ["/base"]) "/other/dir").2.2 (by decide)

/-! ### Claim C4 -/

/-- C4: construction is idempotent per runtime context: every
construction publishes the returned instance on the constructor object;
constructing again returns exactly that published instance and leaves
the context completely unchanged — no hook is re-captured or
re-wrapped — and an `addAlias` made through any handle of the singleton
updates the single published instance, so it is observable through the
first handle. -/
theorem c4_idempotent_construction (ctx : ModuleCtorState) (pp pp2 : Option (List String))
    (pkg pkg2 : NpmPackage) (base base2 : String) (a : String) (t : AliasTarget) :
    (construct ctx pp pkg base).1.moduleAliasSlot = some (construct ctx pp pkg base).2
      ∧ construct (construct ctx pp pkg base).1 pp2 pkg2 base2 =
          ((construct ctx pp pkg base).1, (construct ctx pp pkg base).2)
      ∧ (ctxAddAlias (construct ctx pp pkg base).1 a t).moduleAliasSlot =
          some (addAlias (construct ctx pp pkg base).2 a t) := by
  cases hslot : ctx.moduleAliasSlot with
  | some inst => simp [construct, hslot, ctxAddAlias]
  | none => simp [construct, hslot, ctxAddAlias]

/-! ### Claim C5 -/

/-- C5: when the first matching alias's target is a handler function,
the handler is invoked with `(parent.filename, original request, alias
name)`; if its return value is a nonempty string it becomes the new
target prefix, and if it is falsy or not a string the wrapped resolver
throws the configuration error before the path-repair step and before
the delegate: the call returns the instance state — in particular the
alias dictionary and its sorted index — and the parent exactly
unchanged, with the error as outcome. -/
theorem c5_handler_contract {α β : Type} (old : String → Option NodeModuleRec → α → β)
    (s : ModuleAliasState) (req : String) (m : NodeModuleRec) (args : α)
    (a : String) (f : String → String → String → JsVal)
    (hfind : findMatchingAlias s.moduleAliasNames req = some a)
    (hget : dictGet s.moduleAliases a = some (.handler f)) :
    ((f m.filename req a = .vother ∨ f m.filename req a = .vstr "") →
        resolveFilename old s req (some m) args =
          (s, some m, .error (.aliasError
            "[module-alias] Expecting custom handler function to return path.")))
      ∧ (∀ str : String, f m.filename req a = .vstr str → str ≠ "" →
          resolveFilename old s req (some m) args =
            (s, repairParentPaths s (some m),
              .ok (old (join2 str (substrFrom req a.length))
                (repairParentPaths s (some m)) args))) := by
  constructor
  · intro hv
    have hrw : rewriteRequest s req (some m) = .error (.aliasError
        "[module-alias] Expecting custom handler function to return path.") := by
      rcases hv with hv | hv <;> simp [rewriteRequest, hfind, hget, hv]
    simp [resolveFilename, hrw]
  · intro str hstr hne
    have hrw : rewriteRequest s req (some m) =
        .ok (join2 str (substrFrom req a.length)) := by
      simp [rewriteRequest, hfind, hget, hstr, hne]
    simp [resolveFilename, hrw]

/-- Witness for C5: the handler alias `"@h"` returning a non-string on
the request `"@h/x"`. -/
theorem c5_handler_contract_witness :
    (findMatchingAlias handlerState.moduleAliasNames "@h/x" = some "@h"
        ∧ dictGet handlerState.moduleAliases "@h" = some (.handler handlerBad))
      ∧ (((handlerBad (NodeModuleRec.mk "/m.js" none).filename "@h/x" "@h" = .vother
            ∨ handlerBad (NodeModuleRec.mk "/m.js" none).filename "@h/x" "@h" = .vstr "") →
          resolveFilename (fun r (_ : Option NodeModuleRec) (_ : Unit) => r)
              handlerState "@h/x" (some (NodeModuleRec.mk "/m.js" none)) () =
            (handlerState, some (NodeModuleRec.mk "/m.js" none),
              .error (.aliasError
                "[module-alias] Expecting custom handler function to return path.")))
        ∧ (∀ str : String,
            handlerBad (NodeModuleRec.mk "/m.js" none).filename "@h/x" "@h" = .vstr str →
            str ≠ "" →
            resolveFilename (fun r (_ : Option NodeModuleRec) (_ : Unit) => r)
                handlerState "@h/x" (some (NodeModuleRec.mk "/m.js" none)) () =
              (handlerState,
                repairParentPaths handlerState (some (NodeModuleRec.mk "/m.js" none)),
                .ok ((fun r (_ : Option NodeModuleRec) (_ : Unit) => r)
                  (join2 str (substrFrom "@h/x" ("@h" : String).length))
                  (repairParentPaths handlerState (some (NodeModuleRec.mk "/m.js" none)))
                  ())))) :=
  ⟨⟨rfl, rfl⟩,
   c5_handler_contract (fun r (_ : Option NodeModuleRec) (_ : Unit) => r)
     handlerState "@h/x" (NodeModuleRec.mk "/m.js" none) () "@h" handlerBad rfl rfl⟩

/-! ### Claim C6 -/

/-- C6: `addPath` normalizes its argument first and, as a total
function, never throws; calling it twice with two strings that
normalize to the same path leaves exactly one entry for that path in
the Path Set; a genuinely new normalized path is inserted at the front
of the Path Set and front-inserted, with the same de-duplication, into
the owning module's search-path list. -/
theorem c6_addPath_idempotent (s : ModuleAliasState) (p1 p2 : String)
    (hnorm : normalize p1 = normalize p2)
    (hcount : s.modulePaths.count (normalize p1) ≤ 1) :
    (addPath (addPath s p1) p2).modulePaths.count (normalize p1) = 1
      ∧ (normalize p1 ∉ s.modulePaths →
          (addPath s p1).modulePaths = normalize p1 :: s.modulePaths
            ∧ (addPath s p1).ownerPaths = addPathHelper (normalize p1) s.ownerPaths)
      ∧ (∀ (q : String) (arr : List String), normalize q ∉ arr →
          addPathHelper q (some arr) = some (normalize q :: arr)) := by
  refine ⟨?_, ?_, ?_⟩
  · by_cases hmem : normalize p1 ∈ s.modulePaths
    · have h1 : addPath s p1 = s := by
        simp [addPath, hmem]
      have h2 : addPath s p2 = s := by
        simp [addPath, ← hnorm, hmem]
      rw [h1, h2]
      exact Nat.le_antisymm hcount (List.count_pos_iff.mpr hmem)
    · have h1 : (addPath s p1).modulePaths = normalize p1 :: s.modulePaths := by
        simp [addPath, hmem]
      have h2 : addPath (addPath s p1) p2 = addPath s p1 := by
        have hin : normalize p2 ∈ (addPath s p1).modulePaths := by
          rw [h1, ← hnorm]
          exact List.mem_cons_self _ _
        generalize addPath s p1 = s2 at hin ⊢
        simp [addPath, hin]
      rw [h2, h1, List.count_cons_self, List.count_eq_zero.mpr hmem]
  · intro hmem
    constructor <;> simp [addPath, hmem]
  · intro q arr hq
    simp [addPathHelper, hq]

/-- Witness for C6: `"a/./b"` and `"a//b"` normalize to the same path
`"a/b"`. -/
theorem c6_addPath_idempotent_witness :
    (normalize "a/./b" = normalize "a//b"
        ∧ pathState.modulePaths.count (normalize "a/./b") ≤ 1)
      ∧ ((addPath (addPath pathState "a/./b") "a//b").modulePaths.count
            (normalize "a/./b") = 1
        ∧ (normalize "a/./b" ∉ pathState.modulePaths →
            (addPath pathState "a/./b").modulePaths =
                normalize "a/./b" :: pathState.modulePaths
              ∧ (addPath pathState "a/./b").ownerPaths =
                  addPathHelper (normalize "a/./b") pathState.ownerPaths)
        ∧ (∀ (q : String) (arr : List String), normalize q ∉ arr →
            addPathHelper q (some arr) = some (normalize q :: arr))) :=
  ⟨⟨by decide, by decide⟩,
   c6_addPath_idempotent pathState "a/./b" "a//b" (by decide) (by decide)⟩

/-! ### Lemmas about the key-object de-duplication -/

theorem objKeys_sublist : ∀ l : List String, (objKeys l).Sublist l
  | [] => by simp [objKeys]
  | x :: xs => by
    rw [objKeys]
    exact ((objKeys_sublist _).trans (List.filter_sublist xs)).cons₂ x
termination_by l => l.length
decreasing_by
  simp only [List.length_cons]
  exact Nat.lt_succ_of_le (List.length_filter_le _ _)

theorem mem_objKeys : ∀ (l : List String) (a : String), a ∈ objKeys l ↔ a ∈ l
  | [], a => by simp [objKeys]
  | x :: xs, a => by
    rw [objKeys]
    constructor
    · intro h
      rcases List.mem_cons.mp h with he | hm
      · exact he ▸ List.mem_cons_self _ _
      · have := (mem_objKeys _ a).mp hm
        exact List.mem_cons_of_mem _ (List.mem_of_mem_filter this)
    · intro h
      rcases List.mem_cons.mp h with he | hm
      · exact he ▸ List.mem_cons_self _ _
      · by_cases hx : a = x
        · exact hx ▸ List.mem_cons_self _ _
        · refine List.mem_cons_of_mem _ ((mem_objKeys _ a).mpr ?_)
          exact List.mem_filter.mpr ⟨hm, decide_eq_true hx⟩
termination_by l => l.length
decreasing_by
  all_goals simp only [List.length_cons]
  all_goals exact Nat.lt_succ_of_le (List.length_filter_le _ _)

theorem objKeys_nodup : ∀ l : List String, (objKeys l).Nodup
  | [] => by simp [objKeys]
  | x :: xs => by
    rw [objKeys]
    refine List.nodup_cons.mpr ⟨?_, objKeys_nodup _⟩
    intro hmem
    have := (mem_objKeys _ x).mp hmem
    simp [List.mem_filter] at this
termination_by l => l.length
decreasing_by
  simp only [List.length_cons]
  exact Nat.lt_succ_of_le (List.length_filter_le _ _)

/-! ### Claim C8 -/

/-- C8: on every call of the wrapped resolver whose rewriting phase does
not throw, the requesting module's search-path list is replaced, before
delegating, by the de-duplicated order-preserving union of the global
Path Set entries (first) and the module's pre-existing entries (after):
the new list is duplicate-free, contains exactly the paths of the two
sources, and is an order-preserving selection from Path Set entries
followed by the module's previous entries; the delegate is then called
with the possibly-rewritten request, this repaired module, and the
extra arguments forwarded unchanged. -/
theorem c8_search_path_repair {α β : Type} (old : String → Option NodeModuleRec → α → β)
    (s : ModuleAliasState) (req req2 : String) (m : NodeModuleRec) (args : α)
    (hok : rewriteRequest s req (some m) = .ok req2) :
    ∃ u, repairParentPaths s (some m) = some { m with paths := some u }
      ∧ resolveFilename old s req (some m) args =
          (s, some { m with paths := some u },
            .ok (old req2 (some { m with paths := some u }) args))
      ∧ u = objKeys (s.modulePaths ++ m.paths.getD [])
      ∧ u.Nodup
      ∧ (∀ p, p ∈ u ↔ p ∈ s.modulePaths ∨ p ∈ m.paths.getD [])
      ∧ u.Sublist (s.modulePaths ++ m.paths.getD []) := by
  have hrep : repairParentPaths s (some m) =
      some { m with paths := some (objKeys (s.modulePaths ++ m.paths.getD [])) } := by
    cases hp : m.paths with
    | some ps => simp [repairParentPaths, hp]
    | none => simp [repairParentPaths, hp]
  refine ⟨objKeys (s.modulePaths ++ m.paths.getD []), hrep, ?_, rfl, objKeys_nodup _, ?_, objKeys_sublist _⟩
  · rw [show resolveFilename old s req (some m) args =
        (s, repairParentPaths s (some m),
          .ok (old req2 (repairParentPaths s (some m)) args)) from by
      simp [resolveFilename, hok], hrep]
  · intro p
    rw [mem_objKeys]
    exact List.mem_append

/-- Witness for C8: a request matching no alias, from a module whose
own path list shares one entry with the Path Set. -/
theorem c8_search_path_repair_witness :
    rewriteRequest pathState "lodash" (some (NodeModuleRec.mk "/m.js" (some ["/p", "/q"]))) =
        .ok "lodash"
      ∧ (∃ u, repairParentPaths pathState
            (some (NodeModuleRec.mk "/m.js" (some ["/p", "/q"]))) =
            some { NodeModuleRec.mk "/m.js" (some ["/p", "/q"]) with paths := some u }
          ∧ resolveFilename (fun r (_ : Option NodeModuleRec) (_ : Unit) => r)
              pathState "lodash" (some (NodeModuleRec.mk "/m.js" (some ["/p", "/q"]))) () =
              (pathState,
                some { NodeModuleRec.mk "/m.js" (some ["/p", "/q"]) with paths := some u },
                .ok ((fun r (_ : Option NodeModuleRec) (_ : Unit) => r) "lodash"
                  (some { NodeModuleRec.mk "/m.js" (some ["/p", "/q"]) with paths := some u })
                  ()))
          ∧ u = objKeys (pathState.modulePaths ++
              (NodeModuleRec.mk "/m.js" (some ["/p", "/q"])).paths.getD [])
          ∧ u.Nodup
          ∧ (∀ p, p ∈ u ↔ p ∈ pathState.modulePaths ∨
              p ∈ (NodeModuleRec.mk "/m.js" (some ["/p", "/q"])).paths.getD [])
          ∧ u.Sublist (pathState.modulePaths ++
              (NodeModuleRec.mk "/m.js" (some ["/p", "/q"])).paths.getD [])) :=
  ⟨rfl,
   c8_search_path_repair (fun r (_ : Option NodeModuleRec) (_ : Unit) => r)
     pathState "lodash" "lodash" (NodeModuleRec.mk "/m.js" (some ["/p", "/q"])) () rfl⟩

/-! ### Claim C10 -/

/-- C10: when the wrapped resolver is called with no requesting module
and the matching alias (if any) has a static target, the call does not
throw and performs no search-path mutation — there is no module to
repair and the repair step passes the absent module through — and it
delegates to the captured resolver with the possibly-rewritten request,
the same absent module, and the forwarded arguments. -/
theorem c10_null_parent_safe {α β : Type} (old : String → Option NodeModuleRec → α → β)
    (s : ModuleAliasState) (req : String) (args : α)
    (hstatic : ∀ c, findMatchingAlias s.moduleAliasNames req = some c →
        ∃ t, dictGet s.moduleAliases c = some (.static t)) :
    ∃ req2, rewriteRequest s req none = .ok req2
      ∧ resolveFilename old s req none args = (s, none, .ok (old req2 none args)) := by
  cases hf : findMatchingAlias s.moduleAliasNames req with
  | none =>
    refine ⟨req, ?_, ?_⟩
    · simp [rewriteRequest, hf]
    · simp [resolveFilename, rewriteRequest, hf, repairParentPaths]
  | some c =>
    obtain ⟨t, hget⟩ := hstatic c hf
    refine ⟨join2 t (substrFrom req c.length), ?_, ?_⟩
    · simp [rewriteRequest, hf, hget]
    · simp [resolveFilename, rewriteRequest, hf, hget, repairParentPaths]

/-- Witness for C10: a static alias matched by the request, with a null
requesting module. -/
theorem c10_null_parent_safe_witness :
    (∀ c, findMatchingAlias (singleAliasState "@c" "/srv").moduleAliasNames "@c/z" = some c →
        ∃ t, dictGet (singleAliasState "@c" "/srv").moduleAliases c = some (.static t))
      ∧ (∃ req2, rewriteRequest (singleAliasState "@c" "/srv") "@c/z" none = .ok req2
          ∧ resolveFilename (fun r (_ : Option NodeModuleRec) (_ : Unit) => r)
              (singleAliasState "@c" "/srv") "@c/z" none () =
              (singleAliasState "@c" "/srv", none,
                .ok ((fun r (_ : Option NodeModuleRec) (_ : Unit) => r) req2 none ()))) :=
  ⟨fun c hc => by
      have h0 : findMatchingAlias (singleAliasState "@c" "/srv").moduleAliasNames "@c/z" =
          some "@c" := rfl
      rw [h0] at hc
      injection hc with h
      subst h
      exact ⟨"/srv", rfl⟩,
   c10_null_parent_safe (fun r (_ : Option NodeModuleRec) (_ : Unit) => r)
     (singleAliasState "@c" "/srv") "@c/z" ()
     (fun c hc => by
        have h0 : findMatchingAlias (singleAliasState "@c" "/srv").moduleAliasNames "@c/z" =
            some "@c" := rfl
        rw [h0] at hc
        injection hc with h
        subst h
        exact ⟨"/srv", rfl⟩)⟩

/-! ### Claim C9 -/

theorem applyRegistrations_modulePaths (ops : List (String × AliasTarget))
    (s : ModuleAliasState) : (applyRegistrations s ops).modulePaths = s.modulePaths := by
  induction ops generalizing s with
  | nil => rfl
  | cons op rest ih => exact ih _

theorem dictGet_applyRegistrations_notmem (ops : List (String × AliasTarget))
    (s : ModuleAliasState) (a : String) (h : ∀ e ∈ ops, e.1 ≠ a) :
    dictGet (applyRegistrations s ops).moduleAliases a = dictGet s.moduleAliases a := by
  induction ops generalizing s with
  | nil => rfl
  | cons e rest ih =>
    have he := h e (List.mem_cons_self _ _)
    rw [show applyRegistrations s (e :: rest) =
        applyRegistrations (addAlias s e.1 e.2) rest from rfl,
      ih _ (fun e2 hm => h e2 (List.mem_cons_of_mem _ hm))]
    exact dictGet_dictSet_ne _ _ _ _ he

theorem dictGet_applyRegistrations (entries : List (String × AliasTarget))
    (s : ModuleAliasState) (hnd : (entries.map Prod.fst).Nodup)
    {a : String} {t : AliasTarget} (hmem : (a, t) ∈ entries) :
    dictGet (applyRegistrations s entries).moduleAliases a = some t := by
  induction entries generalizing s with
  | nil => simp at hmem
  | cons e rest ih =>
    obtain ⟨k, v⟩ := e
    rcases List.mem_cons.mp hmem with he | hm
    · have hak : a = k := by
        have := congrArg Prod.fst he
        exact this
      have hat : t = v := by
        have := congrArg Prod.snd he
        exact this
      subst hak
      subst hat
      have hnot : ∀ e2 ∈ rest, e2.1 ≠ a := by
        intro e2 hm2 heq
        have hhd := (List.nodup_cons.mp hnd).1
        have hmap : e2.1 ∈ rest.map Prod.fst := List.mem_map_of_mem Prod.fst hm2
        rw [heq] at hmap
        exact hhd hmap
      rw [show applyRegistrations s ((a, t) :: rest) =
          applyRegistrations (addAlias s a t) rest from rfl,
        dictGet_applyRegistrations_notmem rest _ a hnot]
      exact dictGet_dictSet_self _ _ _
    · exact ih _ (List.nodup_cons.mp hnd).2 hm

theorem addAliases_modulePaths (entries : List (String × AliasTarget))
    (s : ModuleAliasState) : (addAliases s entries).modulePaths = s.modulePaths :=
  applyRegistrations_modulePaths entries s

theorem foldl_dirs_aliases (base : String) (dirs : List String) (s : ModuleAliasState) :
    (dirs.foldl (fun s d => if d = "node_modules" then s else addPath s (join2 base d))
        s).moduleAliases = s.moduleAliases := by
  induction dirs generalizing s with
  | nil => rfl
  | cons d rest ih =>
    rw [List.foldl_cons, ih]
    by_cases hd : d = "node_modules"
    · rw [if_pos hd]
    · rw [if_neg hd]
      by_cases hm : normalize (join2 base d) ∈ s.modulePaths <;> simp [addPath, hm]

theorem addPath_mem (s : ModuleAliasState) (q p : String) :
    p ∈ (addPath s q).modulePaths ↔ p = normalize q ∨ p ∈ s.modulePaths := by
  by_cases hm : normalize q ∈ s.modulePaths
  · simp only [addPath, if_pos hm]
    constructor
    · exact Or.inr
    · rintro (rfl | h)
      · exact hm
      · exact h
  · simp [addPath, hm, List.mem_cons]

theorem foldl_dirs_mem (base : String) (dirs : List String) (s : ModuleAliasState)
    (p : String) :
    p ∈ (dirs.foldl (fun s d => if d = "node_modules" then s else addPath s (join2 base d))
        s).modulePaths
      ↔ p ∈ s.modulePaths ∨
          ∃ d ∈ dirs, d ≠ "node_modules" ∧ p = normalize (join2 base d) := by
  induction dirs generalizing s with
  | nil => simp
  | cons d rest ih =>
    rw [List.foldl_cons]
    by_cases hd : d = "node_modules"
    · rw [if_pos hd, ih]
      subst hd
      constructor
      · rintro (h | ⟨d2, hd2, hne, he⟩)
        · exact Or.inl h
        · exact Or.inr ⟨d2, List.mem_cons_of_mem _ hd2, hne, he⟩
      · rintro (h | ⟨d2, hd2, hne, he⟩)
        · exact Or.inl h
        · rcases List.mem_cons.mp hd2 with he2 | hm2
          · exact absurd he2 (fun h2 => hne (h2 ▸ rfl))
          · exact Or.inr ⟨d2, hm2, hne, he⟩
    · rw [if_neg hd, ih]
      constructor
      · rintro (h | ⟨d2, hd2, hne, he⟩)
        · rcases (addPath_mem s (join2 base d) p).mp h with he | hm
          · exact Or.inr ⟨d, List.mem_cons_self _ _, hd, he⟩
          · exact Or.inl hm
        · exact Or.inr ⟨d2, List.mem_cons_of_mem _ hd2, hne, he⟩
      · rintro (h | ⟨d2, hd2, hne, he⟩)
        · exact Or.inl ((addPath_mem s (join2 base d) p).mpr (Or.inr h))
        · rcases List.mem_cons.mp hd2 with he2 | hm2
          · subst he2
            exact Or.inl ((addPath_mem s (join2 base d2) p).mpr (Or.inl he))
          · exact Or.inr ⟨d2, hm2, hne, he⟩

/-- C9: importing the manifest at construction registers every declared
alias, with absolute-looking targets rebased by joining the manifest's
base directory onto them and all other targets registered verbatim; and
the resulting Path Set consists exactly of the declared extra module
directories joined onto the base (and normalized by `addPath`), a
directory named exactly `node_modules` being always skipped. -/
theorem c9_manifest_import (ctx : ModuleCtorState) (pp : Option (List String))
    (pkg : NpmPackage) (base : String)
    (hslot : ctx.moduleAliasSlot = none)
    (hnd : (pkg.moduleAliases.map Prod.fst).Nodup) :
    (∀ e ∈ pkg.moduleAliases,
        dictGet (construct ctx pp pkg base).2.moduleAliases e.1 =
          some (.static (if isAbsolute e.2 then join2 base e.2 else e.2)))
      ∧ (∀ p, p ∈ (construct ctx pp pkg base).2.modulePaths ↔
          ∃ d ∈ pkg.moduleDirectories.getD [], d ≠ "node_modules"
            ∧ p = normalize (join2 base d)) := by
  have hndi : ((importAliases base pkg.moduleAliases).map Prod.fst).Nodup := by
    have : (importAliases base pkg.moduleAliases).map Prod.fst =
        pkg.moduleAliases.map Prod.fst := by
      simp [importAliases]
    rw [this]
    exact hnd
  cases hdirs : pkg.moduleDirectories with
  | none =>
    constructor
    · intro e he
      have hmem : (e.1, AliasTarget.static (if isAbsolute e.2 then join2 base e.2 else e.2)) ∈
          importAliases base pkg.moduleAliases := by
        simpa [importAliases] using List.mem_map_of_mem
          (fun e2 => (e2.1, AliasTarget.static (if isAbsolute e2.2 then join2 base e2.2 else e2.2)))
          he
      simp only [construct, hslot, hdirs]
      exact dictGet_applyRegistrations _ _ hndi hmem
    · intro p
      simp only [construct, hslot, hdirs]
      rw [addAliases_modulePaths]
      simp
  | some dirs =>
    constructor
    · intro e he
      have hmem : (e.1, AliasTarget.static (if isAbsolute e.2 then join2 base e.2 else e.2)) ∈
          importAliases base pkg.moduleAliases := by
        simpa [importAliases] using List.mem_map_of_mem
          (fun e2 => (e2.1, AliasTarget.static (if isAbsolute e2.2 then join2 base e2.2 else e2.2)))
          he
      simp only [construct, hslot, hdirs]
      rw [foldl_dirs_aliases]
      exact dictGet_applyRegistrations _ _ hndi hmem
    · intro p
      simp only [construct, hslot, hdirs, Option.getD_some]
      rw [foldl_dirs_mem]
      rw [addAliases_modulePaths]
      simp

/-- Witness for C9: a manifest with one absolute and one relative alias
target and directories including a skipped `node_modules`. -/
theorem c9_manifest_import_witness :
    ((ModuleCtorState.mk .base .base none).moduleAliasSlot = none
        ∧ ((NpmPackage.mk [("@abs", "/lib"), ("@rel", "src/x")]
            (some ["vendor", "node_modules"])).moduleAliases.map Prod.fst).Nodup)
      ∧ ((∀ e ∈ (NpmPackage.mk [("@abs", "/lib"), ("@rel", "src/x")]
            (some ["vendor", "node_modules"])).moduleAliases,
          dictGet (construct (ModuleCtorState.mk .base .base none) none
              (NpmPackage.mk [("@abs", "/lib"), ("@rel", "src/x")]
                (some ["vendor", "node_modules"])) "/app").2.moduleAliases e.1 =
            some (.static (if isAbsolute e.2 then join2 "/app" e.2 else e.2)))
        ∧ (∀ p, p ∈ (construct (ModuleCtorState.mk .base .base none) none
              (NpmPackage.mk [("@abs", "/lib"), ("@rel", "src/x")]
                (some ["vendor", "node_modules"])) "/app").2.modulePaths ↔
            ∃ d ∈ ((NpmPackage.mk [("@abs", "/lib"), ("@rel", "src/x")]
                (some ["vendor", "node_modules"])).moduleDirectories).getD [],
              d ≠ "node_modules" ∧ p = normalize (join2 "/app" d))) :=
  ⟨⟨rfl, by decide⟩,
   c9_manifest_import (ModuleCtorState.mk .base .base none) none
     (NpmPackage.mk [("@abs", "/lib"), ("@rel", "src/x")] (some ["vendor", "node_modules"]))
     "/app" rfl (by decide)⟩

end TsModuleAlias
